import Mathlib

/-!
Verification of the medicine-info backend (`src/server.js`).

Strings are modelled as `List Char`.  The two pure helpers `extractJson`
and `formatMedicineData` are translated directly from the source; the
`POST /api/ai` handler is modelled as a pure function parameterised by
the JSON parse function and by the outcome of the upstream completion
call.  JavaScript exceptions (property access on `null`, `JSON.parse`
failure) are modelled with `Option`/`Except`.
-/

/-- Whitespace as used by JavaScript `String.prototype.trim`:
tab, LF, VT, FF, CR, space, NBSP, BOM, and the Unicode space/line
separators. -/
def isJsWs (c : Char) : Bool :=
  let n := c.toNat
  n = 9 || n = 10 || n = 11 || n = 12 || n = 13 || n = 32 || n = 160 ||
  n = 0x1680 || (0x2000 ≤ n && n ≤ 0x200A) || n = 0x2028 || n = 0x2029 ||
  n = 0x202F || n = 0x205F || n = 0x3000 || n = 0xFEFF

/-- Model of JavaScript `String.prototype.trim`: drop whitespace from
both ends. -/
def trimChars (s : List Char) : List Char :=
  ((s.dropWhile isJsWs).reverse.dropWhile isJsWs).reverse

/-- If `pat` is a prefix of `t` after applying `f` to the characters of
`t`, return the remainder of `t`; otherwise `none`.  With `f = id` this
is exact prefix matching, with `f = Char.toLower` it is the
case-insensitive matching performed by a `/.../i` regex on a pattern
whose letters are lower case. -/
def dropPrefixBy (f : Char → Char) : List Char → List Char → Option (List Char)
  | [], t => some t
  | _ :: _, [] => none
  | p :: ps, c :: cs => if f c = p then dropPrefixBy f ps cs else none

/-- Scan `t` left to right for the first position where `pat` matches
(under `f`); return the part before the match and the part after it.
This is the leftmost-match search a regex engine performs. -/
def splitSubBy (f : Char → Char) (pat : List Char) : List Char → Option (List Char × List Char)
  | [] =>
    match dropPrefixBy f pat [] with
    | some r => some ([], r)
    | none => none
  | c :: cs =>
    match dropPrefixBy f pat (c :: cs) with
    | some r => some ([], r)
    | none =>
      match splitSubBy f pat cs with
      | some (b, r) => some (c :: b, r)
      | none => none

/-- The pattern `pat` occurs at position `i` of `t` (after applying `f`
to the characters of `t`). -/
def matchesAt (f : Char → Char) (pat t : List Char) (i : Nat) : Prop :=
  ((t.drop i).take pat.length).map f = pat

instance (f : Char → Char) (pat t : List Char) (i : Nat) :
    Decidable (matchesAt f pat t i) :=
  inferInstanceAs (Decidable (_ = _))

/-- The opening marker of a JSON-labelled fence, the pattern of the
source regex `/three-backticks json .. /i` in lower case. -/
def jsonMarker : List Char := "```json".toList

/-- A triple-backtick fence delimiter. -/
def closeFence : List Char := "```".toList

/-- Model of `text.match(/```json([\s\S]*?)```/i)`: the captured group
of the leftmost shortest match, if any.  The leftmost match starts at
the first (case-insensitive) occurrence of the marker, and the lazy
interior ends at the first subsequent occurrence of three backticks.
If the first marker occurrence has no closing fence after it, no later
occurrence has one either, so the whole regex fails. -/
def jsonFenced (t : List Char) : Option (List Char) :=
  match splitSubBy Char.toLower jsonMarker t with
  | none => none
  | some (_, rest) =>
    match splitSubBy id closeFence rest with
    | some (body, _) => some body
    | none => none

/-- Model of `text.match(/```([\s\S]*?)```/)`: the captured group of
the leftmost shortest generic fenced block, if any. -/
def genericFenced (t : List Char) : Option (List Char) :=
  match splitSubBy id closeFence t with
  | none => none
  | some (_, rest) =>
    match splitSubBy id closeFence rest with
    | some (body, _) => some body
    | none => none

/-- Model of `text.indexOf(c)` (as `Option` instead of `-1`). -/
def firstIdx (c : Char) : List Char → Option Nat
  | [] => none
  | x :: xs => if x = c then some 0 else (firstIdx c xs).map (· + 1)

/-- Model of `text.lastIndexOf(c)` (as `Option` instead of `-1`). -/
def lastIdx (c : Char) : List Char → Option Nat
  | [] => none
  | x :: xs =>
    match lastIdx c xs with
    | some i => some (i + 1)
    | none => if x = c then some 0 else none

/-- Translation of `extractJson` from `src/server.js`: empty input
yields `null`; otherwise try the JSON-labelled fence, then a generic
fence, then the slice from the first `\x7b` to the last `\x7d` when the
latter comes strictly later. -/
def extractJson (text : List Char) : Option (List Char) :=
  if text.isEmpty then none
  else
    match jsonFenced text with
    | some body => some (trimChars body)
    | none =>
      match genericFenced text with
      | some body => some (trimChars body)
      | none =>
        match firstIdx '{' text, lastIdx '}' text with
        | some s, some e =>
          if s < e then some (trimChars ((text.drop s).take (e + 1 - s))) else none
        | _, _ => none

example : extractJson "pre ```json\n \x7b\"a\":1\x7d \n``` post".toList =
    some "\x7b\"a\":1\x7d".toList := by decide

example : extractJson "a ```x``` b".toList = some "x".toList := by decide

example : extractJson "a \x7b 1 \x7d b".toList = some "\x7b 1 \x7d".toList := by decide

example : extractJson "nothing here".toList = none := by decide

example : extractJson [] = none := by decide

/-- JSON-like values as produced by `JSON.parse`: the argument of
`formatMedicineData`.  There is no `undefined` constructor because
`JSON.parse` never produces it; an absent object property is modelled
by `Option` at the access site. -/
inductive JVal where
  | vNull
  | vBool (b : Bool)
  | vNum (n : Int)
  | vStr (s : List Char)
  | vArr (xs : List JVal)
  | vObj (fs : List (List Char × JVal))

/-- Property lookup on an object literal, last binding wins as in a
JavaScript object built key by key. -/
def lookupF (fs : List (List Char × JVal)) (k : List Char) : Option JVal :=
  match fs with
  | [] => none
  | (k', v) :: rest =>
    match lookupF rest k with
    | some r => some r
    | none => if k' = k then some v else none

/-- Field names used by the formatter and the handler. -/
def nameKey : List Char := "name".toList

/-- Field name of the uses sequence. -/
def usesKey : List Char := "uses".toList

/-- Field name of the side-effects sequence. -/
def seKey : List Char := "sideEffects".toList

/-- Field name of the note text. -/
def noteKey : List Char := "note".toList

/-- Field name of the request query. -/
def queryKey : List Char := "query".toList

/-- Field name of a use condition. -/
def condKey : List Char := "condition".toList

/-- Field name of a use description. -/
def descKey : List Char := "description".toList

/-- Field name of a severity label. -/
def sevKey : List Char := "severity".toList

/-- Field name of a nested effects sequence. -/
def effKey : List Char := "effects".toList

/-- JavaScript truthiness of a possibly-undefined value:
`undefined`, `null`, `false`, `0`, and `""` are falsy. -/
def jTruthy : Option JVal → Bool
  | none => false
  | some .vNull => false
  | some (.vBool b) => b
  | some (.vNum n) => decide (n ≠ 0)
  | some (.vStr s) => !s.isEmpty
  | some (.vArr _) => true
  | some (.vObj _) => true

/-- JavaScript `x || d` for a possibly-undefined `x` and a default. -/
def jOr (v : Option JVal) (d : JVal) : JVal :=
  if jTruthy v then v.getD d else d

/-- Property access `v.k`, which throws on `null` (modelled by `none` in
the outer `Option`) and yields `undefined` (the inner `none`) on values
that have no such property. -/
def jprop (v : JVal) (k : List Char) : Option (Option JVal) :=
  match v with
  | .vNull => none
  | .vObj fs => some (lookupF fs k)
  | _ => some none

mutual

/-- JavaScript string conversion as performed by template interpolation:
objects print as `[object Object]`, arrays join their elements with
commas. -/
def jsToString : JVal → List Char
  | .vNull => "null".toList
  | .vBool b => (if b then "true" else "false").toList
  | .vNum n => (toString n).toList
  | .vStr s => s
  | .vObj _ => "[object Object]".toList
  | .vArr xs => jsArrStr xs

/-- Array-to-string: elements joined with `,`, with `null` elements
rendered empty. -/
def jsArrStr : List JVal → List Char
  | [] => []
  | [JVal.vNull] => []
  | [x] => jsToString x
  | JVal.vNull :: y :: rest => ',' :: jsArrStr (y :: rest)
  | x :: y :: rest => jsToString x ++ ',' :: jsArrStr (y :: rest)

end

/-- Lower-case hexadecimal digit, used by `\u00..` escapes. -/
def hexDigitChar (n : Nat) : Char :=
  if n < 10 then Char.ofNat (48 + n) else Char.ofNat (87 + n)

/-- Escaping of one character inside a `JSON.stringify` string. -/
def jsonEscapeChar (c : Char) : List Char :=
  if c = '"' then ['\\', '"']
  else if c = '\\' then ['\\', '\\']
  else if c = '\x08' then ['\\', 'b']
  else if c = '\x09' then ['\\', 't']
  else if c = '\x0a' then ['\\', 'n']
  else if c = '\x0c' then ['\\', 'f']
  else if c = '\x0d' then ['\\', 'r']
  else if c.toNat < 32 then
    '\\' :: 'u' :: '0' :: '0' :: hexDigitChar (c.toNat / 16) :: [hexDigitChar (c.toNat % 16)]
  else [c]

/-- Escaping of a whole `JSON.stringify` string body. -/
def jsonEscape (s : List Char) : List Char := (s.map jsonEscapeChar).flatten

mutual

/-- Model of `JSON.stringify` on parsed-JSON values (no `undefined`,
no cycles, so it is total here). -/
def jsonStringify : JVal → List Char
  | .vNull => "null".toList
  | .vBool b => (if b then "true" else "false").toList
  | .vNum n => (toString n).toList
  | .vStr s => '"' :: jsonEscape s ++ ['"']
  | .vArr xs => '[' :: jsonArrBody xs ++ [']']
  | .vObj fs => '{' :: jsonObjBody fs ++ ['}']

/-- Comma-separated `JSON.stringify` of array elements. -/
def jsonArrBody : List JVal → List Char
  | [] => []
  | [x] => jsonStringify x
  | x :: y :: rest => jsonStringify x ++ ',' :: jsonArrBody (y :: rest)

/-- Comma-separated `JSON.stringify` of object fields. -/
def jsonObjBody : List (List Char × JVal) → List Char
  | [] => []
  | [(k, v)] => '"' :: jsonEscape k ++ '"' :: ':' :: jsonStringify v
  | (k, v) :: y :: rest =>
    ('"' :: jsonEscape k ++ '"' :: ':' :: jsonStringify v) ++ ',' :: jsonObjBody (y :: rest)

end

/-- One entry of the `uses` loop in `formatMedicineData`: strings are
bulleted as-is; non-null objects (arrays included, as `typeof` calls
them objects) render `condition: description` keeping only truthy
parts, falling back to `JSON.stringify`; anything else is skipped. -/
def renderUse (u : JVal) : List Char :=
  match u with
  | .vStr s => '-' :: ' ' :: s ++ ['\n']
  | .vObj fs =>
    let kept := [lookupF fs condKey, lookupF fs descKey].filter jTruthy
    let line :=
      match kept with
      | [] => []
      | [a] => jsToString (a.getD .vNull)
      | a :: b :: _ => jsToString (a.getD .vNull) ++ ':' :: ' ' :: jsToString (b.getD .vNull)
    '-' :: ' ' :: (if line.isEmpty then jsonStringify u else line) ++ ['\n']
  | .vArr _ => '-' :: ' ' :: jsonStringify u ++ ['\n']
  | _ => []

/-- One entry of the `sideEffects` loop: a string gets its own bullet;
`null` makes the loop body throw on `group.severity` (hence `none`);
any other value is treated as a severity group. -/
def renderGroup (g : JVal) : Option (List Char) :=
  match g with
  | .vStr s => some ('-' :: ' ' :: s ++ ['\n', '\n'])
  | .vNull => none
  | _ =>
    let sevV := match g with | .vObj fs => lookupF fs sevKey | _ => none
    let sev := jsToString (jOr sevV (.vStr "Severity not specified".toList))
    let effV := match g with | .vObj fs => lookupF fs effKey | _ => none
    let effLines :=
      match effV with
      | some (.vArr es) => (es.map (fun e => ' ' :: ' ' :: '-' :: ' ' :: jsToString e ++ ['\n'])).flatten
      | _ => []
    some ('-' :: ' ' :: sev ++ ':' :: '\n' :: effLines ++ ['\n'])

/-- The `sideEffects` loop over all entries; `none` as soon as one
entry throws. -/
def renderGroups : List JVal → Option (List Char)
  | [] => some []
  | g :: gs =>
    match renderGroup g, renderGroups gs with
    | some s, some rest => some (s ++ rest)
    | _, _ => none

/-- The fixed disclaimer used when `note` is falsy. -/
def disclaimerMsg : List Char :=
  "This information is for educational purposes only. Always consult a qualified healthcare professional.".toList

/-- Translation of `formatMedicineData` from `src/server.js`.  `none`
models the TypeError thrown when a property is read off `null` (the
whole input being `null`, or a `null` entry inside `sideEffects`). -/
def formatMedicineData (data : JVal) : Option (List Char) := do
  let nameV ← jprop data nameKey
  let headPart := jsToString (jOr nameV (.vStr "Unknown medicine".toList)) ++ ['\n', '\n']
  let usesV ← jprop data usesKey
  let usesPart :=
    match usesV with
    | some (.vArr us) =>
      if us.isEmpty then [] else "Uses:\n".toList ++ (us.map renderUse).flatten ++ ['\n']
    | _ => []
  let seV ← jprop data seKey
  let sePart ←
    match seV with
    | some (.vArr gs) =>
      if gs.isEmpty then some [] else (renderGroups gs).map (fun s => "Side Effects:\n".toList ++ s)
    | _ => some []
  let noteV ← jprop data noteKey
  let notePart :=
    if jTruthy noteV then "Note:\n".toList ++ jsToString (noteV.getD .vNull) ++ ['\n']
    else "Note:\n".toList ++ disclaimerMsg ++ ['\n']
  some (trimChars (headPart ++ usesPart ++ sePart ++ notePart))

example :
    formatMedicineData (.vObj []) =
      some ("Unknown medicine\n\nNote:\n".toList ++ disclaimerMsg) := by decide

example :
    formatMedicineData (.vObj [("sideEffects".toList, .vArr [.vNull])]) = none := by decide

example : formatMedicineData .vNull = none := by decide

example :
    formatMedicineData (.vObj [("name".toList, .vStr "Aspirin".toList)]) =
      some ("Aspirin\n\nNote:\n".toList ++ disclaimerMsg) := by decide

/-- JSON syntactic whitespace. -/
def isJsonWs (c : Char) : Bool := c = ' ' || c = '\t' || c = '\n' || c = '\r'

/-- Skip JSON whitespace. -/
def skipWs (s : List Char) : List Char := s.dropWhile isJsonWs

/-- Value of a hexadecimal digit. -/
def hexVal (c : Char) : Option Nat :=
  if '0' ≤ c ∧ c ≤ '9' then some (c.toNat - 48)
  else if 'a' ≤ c ∧ c ≤ 'f' then some (c.toNat - 87)
  else if 'A' ≤ c ∧ c ≤ 'F' then some (c.toNat - 55)
  else none

/-- Body of a JSON string after the opening quote: the decoded
characters and the remainder after the closing quote. -/
def parseStrBody : List Char → Option (List Char × List Char)
  | [] => none
  | '"' :: rest => some ([], rest)
  | '\\' :: esc =>
    match esc with
    | '"' :: r => (parseStrBody r).map (fun p => ('"' :: p.1, p.2))
    | '\\' :: r => (parseStrBody r).map (fun p => ('\\' :: p.1, p.2))
    | '/' :: r => (parseStrBody r).map (fun p => ('/' :: p.1, p.2))
    | 'b' :: r => (parseStrBody r).map (fun p => ('\x08' :: p.1, p.2))
    | 'f' :: r => (parseStrBody r).map (fun p => ('\x0c' :: p.1, p.2))
    | 'n' :: r => (parseStrBody r).map (fun p => ('\n' :: p.1, p.2))
    | 'r' :: r => (parseStrBody r).map (fun p => ('\r' :: p.1, p.2))
    | 't' :: r => (parseStrBody r).map (fun p => ('\t' :: p.1, p.2))
    | 'u' :: h1 :: h2 :: h3 :: h4 :: r =>
      match hexVal h1, hexVal h2, hexVal h3, hexVal h4 with
      | some a, some b, some c, some d =>
        let n := ((a * 16 + b) * 16 + c) * 16 + d
        if h : n.isValidChar then (parseStrBody r).map (fun p => (Char.ofNatAux n h :: p.1, p.2))
        else none
      | _, _, _, _ => none
    | _ => none
  | c :: rest => if c.toNat < 32 then none else (parseStrBody rest).map (fun p => (c :: p.1, p.2))

/-- Numeric value of a decimal digit, if any. -/
def digitVal (c : Char) : Option Nat :=
  if '0' ≤ c ∧ c ≤ '9' then some (c.toNat - 48) else none

/-- Longest digit run at the front of the input. -/
def takeDigits : List Char → (List Nat × List Char)
  | [] => ([], [])
  | c :: cs =>
    match digitVal c with
    | some d =>
      let p := takeDigits cs
      (d :: p.1, p.2)
    | none => ([], c :: cs)

/-- Decimal value of a digit run. -/
def natOfDigits (ds : List Nat) : Nat := ds.foldl (fun a d => 10 * a + d) 0

/-- A JSON integer numeral: optional minus sign, no leading zeros.
Fractional and exponent numerals are outside this integer-only model of
the platform parser and are rejected. -/
def parseNumTok (s : List Char) : Option (JVal × List Char) :=
  let neg : Bool := match s with | '-' :: _ => true | _ => false
  let s1 := match s with | '-' :: r => r | _ => s
  match takeDigits s1 with
  | ([], _) => none
  | (d0 :: ds, r) =>
    if d0 = 0 ∧ ds ≠ [] then none
    else
      match r with
      | '.' :: _ => none
      | 'e' :: _ => none
      | 'E' :: _ => none
      | _ =>
        let n : Int := natOfDigits (d0 :: ds)
        some (.vNum (if neg then -n else n), r)

/-- Worklist item of the fuelled recursive-descent parser: a value to
parse, or an array / object continuation with the fields read so far. -/
inductive PTask where
  | pVal (s : List Char)
  | pArr (s : List Char) (acc : List JVal)
  | pObj (s : List Char) (acc : List (List Char × JVal))

/-- Fuelled recursive descent over JSON (model of the platform
`JSON.parse`, restricted to integer numerals). -/
def pF : Nat → PTask → Option (JVal × List Char)
  | 0, _ => none
  | k + 1, .pVal s =>
    match skipWs s with
    | [] => none
    | '{' :: rest => pF k (.pObj rest [])
    | '[' :: rest => pF k (.pArr rest [])
    | '"' :: rest => (parseStrBody rest).map (fun p => (.vStr p.1, p.2))
    | 't' :: 'r' :: 'u' :: 'e' :: rest => some (.vBool true, rest)
    | 'f' :: 'a' :: 'l' :: 's' :: 'e' :: rest => some (.vBool false, rest)
    | 'n' :: 'u' :: 'l' :: 'l' :: rest => some (.vNull, rest)
    | s' => parseNumTok s'
  | k + 1, .pArr s acc =>
    match skipWs s with
    | ']' :: r => if acc.isEmpty then some (.vArr [], r) else none
    | _ =>
      match pF k (.pVal s) with
      | none => none
      | some (v, rest) =>
        match skipWs rest with
        | ',' :: r2 => pF k (.pArr r2 (acc ++ [v]))
        | ']' :: r2 => some (.vArr (acc ++ [v]), r2)
        | _ => none
  | k + 1, .pObj s acc =>
    match skipWs s with
    | '}' :: r => if acc.isEmpty then some (.vObj [], r) else none
    | '"' :: rest =>
      match parseStrBody rest with
      | none => none
      | some (key, r1) =>
        match skipWs r1 with
        | ':' :: r2 =>
          match pF k (.pVal r2) with
          | none => none
          | some (v, r3) =>
            match skipWs r3 with
            | ',' :: r4 => pF k (.pObj r4 (acc ++ [(key, v)]))
            | '}' :: r4 => some (.vObj (acc ++ [(key, v)]), r4)
            | _ => none
        | _ => none
    | _ => none

/-- Modelled from the platform: `JSON.parse` (integer numerals only),
`none` when parsing throws. -/
def jsonParse (s : List Char) : Option JVal :=
  match pF (2 * s.length + 4) (.pVal s) with
  | some (v, rest) => if (skipWs rest).isEmpty then some v else none
  | none => none

example :
    jsonParse "\x7b\"name\":\"Aspirin\"\x7d".toList =
      some (.vObj [("name".toList, .vStr "Aspirin".toList)]) := rfl

example : jsonParse " [1, null, \"a\"] ".toList =
    some (.vArr [.vNum 1, .vNull, .vStr "a".toList]) := rfl

example : jsonParse "\x7b".toList = none := rfl

example : jsonParse "".toList = none := rfl

/-- An HTTP response of the handler: status code and JSON body. -/
structure HttpResp where
  status : Nat
  body : JVal

/-- The `query` field of the request body, as read by
`const \x7b query \x7d = req.body ?? \x7b\x7d`: `none` is `undefined`.
A missing body, `null`, or a non-object body all destructure to
`undefined`. -/
def getQuery (body : Option JVal) : Option JVal :=
  match body with
  | some (.vObj fs) => lookupF fs queryKey
  | _ => none

/-- The inner `try` of the handler: extract, parse, format.  On a parse
throw, `parsed` keeps its initial `null` and `formattedText` keeps the
raw text; on a format throw, `parsed` has already been assigned, and
`formattedText` keeps the raw text.  Returns `(formattedText, parsed)`. -/
def handleParse (parse : List Char → Option JVal) (rawText : List Char) :
    List Char × Option JVal :=
  let jsonString := (extractJson rawText).getD rawText
  match parse jsonString with
  | none => (rawText, none)
  | some v =>
    match formatMedicineData v with
    | some s => (s, some v)
    | none => (rawText, some v)

/-- Model of the `POST /api/ai` handler, parameterised by the JSON
parse function and by the outcome of the upstream completion call
(`Except` error detail is the thrown error).  The returned `Bool` tells
whether the upstream capability was invoked. -/
def handlePost (parse : List Char → Option JVal)
    (upstream : Except (List Char) (List Char)) (body : Option JVal) :
    Bool × HttpResp :=
  if jTruthy (getQuery body) then
    match upstream with
    | .error _ =>
      (true, ⟨500, .vObj [("error".toList, .vStr "Gemini AI request failed".toList)]⟩)
    | .ok rawText =>
      let tp := handleParse parse rawText
      (true, ⟨200, .vObj [("text".toList, .vStr tp.1), ("raw".toList, tp.2.getD .vNull)]⟩)
  else
    (false, ⟨400, .vObj [("error".toList, .vStr "query is required".toList)]⟩)

theorem isEmpty_false_of_ne (l : List Char) (h : l ≠ []) : l.isEmpty = false := by
  cases l with
  | nil => exact absurd rfl h
  | cons a as => rfl

theorem splitSubBy_nil (f : Char → Char) (pat : List Char) :
    splitSubBy f pat [] =
      match dropPrefixBy f pat [] with
      | some r => some ([], r)
      | none => none := rfl

theorem splitSubBy_cons (f : Char → Char) (pat : List Char) (c : Char) (cs : List Char) :
    splitSubBy f pat (c :: cs) =
      match dropPrefixBy f pat (c :: cs) with
      | some r => some ([], r)
      | none =>
        match splitSubBy f pat cs with
        | some (b, r) => some (c :: b, r)
        | none => none := rfl

theorem matchesAt_of_decomp (f : Char → Char) (pat t a m b : List Char) (i : Nat)
    (ht : t = a ++ (m ++ b)) (hi : a.length = i) (hm : m.map f = pat) :
    matchesAt f pat t i := by
  subst ht; subst hi
  have hlen : m.length = pat.length := by rw [← hm, List.length_map]
  unfold matchesAt
  rw [List.drop_left, ← hlen, List.take_left, hm]

theorem matchesAt_cons (f : Char → Char) (pat : List Char) (c : Char) (t : List Char) (i : Nat) :
    matchesAt f pat (c :: t) (i + 1) ↔ matchesAt f pat t i := by
  unfold matchesAt
  rw [List.drop_succ_cons]

theorem matchesAt_lt_length (f : Char → Char) {pat t : List Char} {i : Nat}
    (hp : pat ≠ []) (h : matchesAt f pat t i) : i < t.length := by
  unfold matchesAt at h
  have hlen := congrArg List.length h
  rw [List.length_map, List.length_take, List.length_drop] at hlen
  have hpos : 0 < pat.length := List.length_pos.mpr hp
  omega

theorem matchesAt_append_left (f : Char → Char) {pat r : List Char} {i : Nat}
    (x : List Char) (h : matchesAt f pat r i) :
    matchesAt f pat (x ++ r) (x.length + i) := by
  induction x with
  | nil => simpa using h
  | cons c cs ih =>
    have he : (c :: cs).length + i = (cs.length + i) + 1 := by
      simp only [List.length_cons]; omega
    rw [he, List.cons_append, matchesAt_cons]
    exact ih

theorem dropPrefixBy_of_map (f : Char → Char) :
    ∀ (m rest : List Char), dropPrefixBy f (m.map f) (m ++ rest) = some rest := by
  intro m
  induction m with
  | nil => intro rest; rfl
  | cons c m' ih => intro rest; simp [dropPrefixBy, ih]

theorem dropPrefixBy_some (f : Char → Char) :
    ∀ (pat t r : List Char), dropPrefixBy f pat t = some r →
      ∃ m, t = m ++ r ∧ m.map f = pat := by
  intro pat
  induction pat with
  | nil =>
    intro t r h
    simp only [dropPrefixBy, Option.some.injEq] at h
    exact ⟨[], by simp [h], rfl⟩
  | cons p ps ih =>
    intro t r h
    cases t with
    | nil => exact absurd h (by simp [dropPrefixBy])
    | cons c cs =>
      simp only [dropPrefixBy] at h
      split at h
      case isTrue heq =>
        obtain ⟨m, hcs, hm⟩ := ih cs r h
        exact ⟨c :: m, by simp [hcs], by simp [hm, heq]⟩
      case isFalse => exact absurd h (by simp)

theorem splitSubBy_first (f : Char → Char) (pat : List Char) :
    ∀ (pre m rest : List Char), m.map f = pat →
      (∀ i < pre.length, ¬ matchesAt f pat (pre ++ (m ++ rest)) i) →
      splitSubBy f pat (pre ++ (m ++ rest)) = some (pre, rest) := by
  intro pre
  induction pre with
  | nil =>
    intro m rest hm _
    have hd : dropPrefixBy f pat (m ++ rest) = some rest := by
      rw [← hm]; exact dropPrefixBy_of_map f m rest
    rw [List.nil_append]
    cases hmr : m ++ rest with
    | nil => rw [hmr] at hd; rw [splitSubBy_nil, hd]
    | cons c cs => rw [hmr] at hd; rw [splitSubBy_cons, hd]
  | cons c pre' ih =>
    intro m rest hm hmin
    have ht : (c :: pre') ++ (m ++ rest) = c :: (pre' ++ (m ++ rest)) := by simp
    have h0 : ¬ matchesAt f pat (c :: (pre' ++ (m ++ rest))) 0 := by
      have h00 := hmin 0 (by simp)
      rwa [ht] at h00
    have hd : dropPrefixBy f pat (c :: (pre' ++ (m ++ rest))) = none := by
      cases hdp : dropPrefixBy f pat (c :: (pre' ++ (m ++ rest))) with
      | none => rfl
      | some r =>
        obtain ⟨m', hts, hm'⟩ := dropPrefixBy_some f _ _ _ hdp
        exact absurd (matchesAt_of_decomp f pat _ [] m' r 0 (by simpa using hts) rfl hm') h0
    have hrec : splitSubBy f pat (pre' ++ (m ++ rest)) = some (pre', rest) := by
      refine ih m rest hm ?_
      intro i hi hmat
      have h2 := hmin (i + 1) (by simp only [List.length_cons]; omega)
      rw [ht] at h2
      exact h2 ((matchesAt_cons f pat c _ i).mpr hmat)
    rw [ht, splitSubBy_cons, hd, hrec]

theorem splitSubBy_none_of (f : Char → Char) (pat : List Char) :
    ∀ (t : List Char), (∀ i, ¬ matchesAt f pat t i) → splitSubBy f pat t = none := by
  intro t
  induction t with
  | nil =>
    intro h
    have hd : dropPrefixBy f pat [] = none := by
      cases hdp : dropPrefixBy f pat [] with
      | none => rfl
      | some r =>
        obtain ⟨m', hts, hm'⟩ := dropPrefixBy_some f _ _ _ hdp
        exact absurd (matchesAt_of_decomp f pat _ [] m' r 0 (by simpa using hts) rfl hm') (h 0)
    rw [splitSubBy_nil, hd]
  | cons c cs ih =>
    intro h
    have hd : dropPrefixBy f pat (c :: cs) = none := by
      cases hdp : dropPrefixBy f pat (c :: cs) with
      | none => rfl
      | some r =>
        obtain ⟨m', hts, hm'⟩ := dropPrefixBy_some f _ _ _ hdp
        exact absurd (matchesAt_of_decomp f pat _ [] m' r 0 (by simpa using hts) rfl hm') (h 0)
    have hrec : splitSubBy f pat cs = none :=
      ih (fun i hmat => h (i + 1) ((matchesAt_cons f pat c cs i).mpr hmat))
    rw [splitSubBy_cons, hd, hrec]

theorem splitSubBy_some_decomp (f : Char → Char) (pat : List Char) :
    ∀ (t b r : List Char), splitSubBy f pat t = some (b, r) →
      ∃ m, t = b ++ (m ++ r) ∧ m.map f = pat := by
  intro t
  induction t with
  | nil =>
    intro b r h
    rw [splitSubBy_nil] at h
    cases hdp : dropPrefixBy f pat [] with
    | some r' =>
      rw [hdp] at h
      simp only [Option.some.injEq, Prod.mk.injEq] at h
      obtain ⟨h1, h2⟩ := h
      obtain ⟨m, hts, hm⟩ := dropPrefixBy_some f _ _ _ hdp
      exact ⟨m, by simp [← h1, ← h2, ← hts], hm⟩
    | none => rw [hdp] at h; exact absurd h (by simp)
  | cons c cs ih =>
    intro b r h
    rw [splitSubBy_cons] at h
    cases hdp : dropPrefixBy f pat (c :: cs) with
    | some r' =>
      rw [hdp] at h
      simp only [Option.some.injEq, Prod.mk.injEq] at h
      obtain ⟨h1, h2⟩ := h
      obtain ⟨m, hts, hm⟩ := dropPrefixBy_some f _ _ _ hdp
      exact ⟨m, by simp [← h1, ← h2, ← hts], hm⟩
    | none =>
      rw [hdp] at h
      cases hrec : splitSubBy f pat cs with
      | some p =>
        obtain ⟨b', r'⟩ := p
        rw [hrec] at h
        simp only [Option.some.injEq, Prod.mk.injEq] at h
        obtain ⟨h1, h2⟩ := h
        obtain ⟨m, hts, hm⟩ := ih b' r' hrec
        exact ⟨m, by simp [← h1, ← h2, hts], hm⟩
      | none => rw [hrec] at h; exact absurd h (by simp)

/-- C1: for every input text that contains a fenced code block
explicitly labelled as JSON (case-insensitive) — decomposed as
`pre ++ marker ++ mid ++ closing-fence ++ post` where the marker is the
first (case-insensitive) occurrence of three backticks followed by
`json` and `mid` contains no closing fence — `extractJson` returns
exactly the trimmed interior of that labelled block, whatever generic
fences or stray braces occur elsewhere in the text. -/
theorem extractJson_labeled_fence (t pre m mid post : List Char)
    (ht : t = pre ++ (m ++ (mid ++ (closeFence ++ post))))
    (hm : m.map Char.toLower = jsonMarker)
    (hfirst : ∀ i < pre.length, ¬ matchesAt Char.toLower jsonMarker t i)
    (hclose : ∀ i < mid.length, ¬ matchesAt id closeFence (mid ++ (closeFence ++ post)) i) :
    extractJson t = some (trimChars mid) := by
  subst ht
  have hs1 : splitSubBy Char.toLower jsonMarker
      (pre ++ (m ++ (mid ++ (closeFence ++ post)))) =
      some (pre, mid ++ (closeFence ++ post)) :=
    splitSubBy_first _ _ pre m _ hm hfirst
  have hs2 : splitSubBy id closeFence (mid ++ (closeFence ++ post)) = some (mid, post) :=
    splitSubBy_first _ _ mid closeFence post (by simp) hclose
  have hmne : m ≠ [] := by
    intro hnil; rw [hnil] at hm; exact absurd hm (by decide)
  have hne : (pre ++ (m ++ (mid ++ (closeFence ++ post)))).isEmpty = false := by
    refine isEmpty_false_of_ne _ ?_
    intro he
    rcases List.append_eq_nil.mp he with ⟨h1, h2⟩
    rcases List.append_eq_nil.mp h2 with ⟨h3, h4⟩
    exact hmne h3
  simp [extractJson, jsonFenced, hne, hs1, hs2]

/-- Witness for C1 at a concrete text with a mixed-case label and
surrounding noise. -/
theorem extractJson_labeled_fence_witness :
    ("x ```Json A ``` y".toList =
      "x ".toList ++ ("```Json".toList ++ (" A ".toList ++ (closeFence ++ " y".toList)))) ∧
    ("```Json".toList.map Char.toLower = jsonMarker) ∧
    (∀ i < "x ".toList.length,
      ¬ matchesAt Char.toLower jsonMarker "x ```Json A ``` y".toList i) ∧
    (∀ i < " A ".toList.length,
      ¬ matchesAt id closeFence (" A ".toList ++ (closeFence ++ " y".toList)) i) ∧
    extractJson "x ```Json A ``` y".toList = some (trimChars " A ".toList) :=
  ⟨by decide, by decide, by decide, by decide,
    extractJson_labeled_fence "x ```Json A ``` y".toList "x ".toList "```Json".toList
      " A ".toList " y".toList (by decide) (by decide) (by decide) (by decide)⟩

/-- C5: for every input text with no JSON-labelled fenced block but at
least one generic triple-backtick fenced block — decomposed as
`pre ++ fence ++ mid ++ fence ++ post` with the first fence being the
first occurrence of three backticks and `mid` fence-free —
`extractJson` returns the trimmed interior of the first generic fenced
block. -/
theorem extractJson_generic_fence (t pre mid post : List Char)
    (ht : t = pre ++ (closeFence ++ (mid ++ (closeFence ++ post))))
    (hnojson : ∀ i < t.length, ∀ j < t.length,
      matchesAt Char.toLower jsonMarker t i → i + 7 ≤ j →
      ¬ matchesAt id closeFence t j)
    (hfirst : ∀ i < pre.length, ¬ matchesAt id closeFence t i)
    (hclose : ∀ i < mid.length, ¬ matchesAt id closeFence (mid ++ (closeFence ++ post)) i) :
    extractJson t = some (trimChars mid) := by
  subst ht
  have hjson : jsonFenced (pre ++ (closeFence ++ (mid ++ (closeFence ++ post)))) = none := by
    cases hj : splitSubBy Char.toLower jsonMarker
        (pre ++ (closeFence ++ (mid ++ (closeFence ++ post)))) with
    | none => simp [jsonFenced, hj]
    | some p =>
      obtain ⟨b, r⟩ := p
      obtain ⟨m', htd, hm'⟩ := splitSubBy_some_decomp _ _ _ _ _ hj
      have hm'7 : m'.length = 7 := by
        have hlm := congrArg List.length hm'
        rw [List.length_map] at hlm
        simpa using hlm
      have hinner : splitSubBy id closeFence r = none := by
        refine splitSubBy_none_of _ _ _ ?_
        intro i hmat
        have hj2 : matchesAt id closeFence ((b ++ m') ++ r) ((b ++ m').length + i) :=
          matchesAt_append_left id (b ++ m') hmat
        rw [List.append_assoc] at hj2
        rw [← htd] at hj2
        have hi1 : matchesAt Char.toLower jsonMarker (b ++ (m' ++ r)) b.length :=
          matchesAt_of_decomp Char.toLower jsonMarker _ b m' r b.length rfl rfl hm'
        rw [← htd] at hi1
        have hjlt := matchesAt_lt_length id (by decide) hj2
        have hilt := matchesAt_lt_length Char.toLower (by decide) hi1
        refine hnojson b.length hilt ((b ++ m').length + i) hjlt hi1 ?_ hj2
        simp only [List.length_append, hm'7]
        omega
      simp [jsonFenced, hj, hinner]
  have hs1 : splitSubBy id closeFence
      (pre ++ (closeFence ++ (mid ++ (closeFence ++ post)))) =
      some (pre, mid ++ (closeFence ++ post)) :=
    splitSubBy_first _ _ pre closeFence _ (by simp) hfirst
  have hs2 : splitSubBy id closeFence (mid ++ (closeFence ++ post)) = some (mid, post) :=
    splitSubBy_first _ _ mid closeFence post (by simp) hclose
  have hne : (pre ++ (closeFence ++ (mid ++ (closeFence ++ post)))).isEmpty = false := by
    refine isEmpty_false_of_ne _ ?_
    intro he
    rcases List.append_eq_nil.mp he with ⟨h1, h2⟩
    rcases List.append_eq_nil.mp h2 with ⟨h3, h4⟩
    exact absurd h3 (by decide)
  simp [extractJson, genericFenced, hne, hjson, hs1, hs2]

/-- Witness for C5 at a concrete text whose only labelled marker has no
closing fence after it, so no labelled block exists. -/
theorem extractJson_generic_fence_witness :
    ("a ``` QQ ``` b ```json".toList =
      "a ".toList ++ (closeFence ++ (" QQ ".toList ++ (closeFence ++ " b ```json".toList)))) ∧
    (∀ i < "a ``` QQ ``` b ```json".toList.length,
      ∀ j < "a ``` QQ ``` b ```json".toList.length,
      matchesAt Char.toLower jsonMarker "a ``` QQ ``` b ```json".toList i → i + 7 ≤ j →
      ¬ matchesAt id closeFence "a ``` QQ ``` b ```json".toList j) ∧
    (∀ i < "a ".toList.length,
      ¬ matchesAt id closeFence "a ``` QQ ``` b ```json".toList i) ∧
    (∀ i < " QQ ".toList.length,
      ¬ matchesAt id closeFence (" QQ ".toList ++ (closeFence ++ " b ```json".toList)) i) ∧
    extractJson "a ``` QQ ``` b ```json".toList = some (trimChars " QQ ".toList) :=
  ⟨by decide, by decide, by decide, by decide,
    extractJson_generic_fence "a ``` QQ ``` b ```json".toList "a ".toList
      " QQ ".toList " b ```json".toList (by decide) (by decide) (by decide) (by decide)⟩

theorem firstIdx_append (ch : Char) (a r : List Char) (ha : ch ∉ a) :
    firstIdx ch (a ++ ch :: r) = some a.length := by
  induction a with
  | nil => simp [firstIdx]
  | cons x a' ih =>
    have hx : ¬ x = ch := by intro hh; exact ha (by simp [hh])
    have ha' : ch ∉ a' := fun hmem => ha (by simp [hmem])
    simp [firstIdx, hx, ih ha']

theorem lastIdx_none (ch : Char) (c : List Char) (hc : ch ∉ c) : lastIdx ch c = none := by
  induction c with
  | nil => rfl
  | cons x c' ih =>
    have hx : ¬ x = ch := by intro hh; exact hc (by simp [hh])
    have hc' : lastIdx ch c' = none := ih (fun hmem => hc (by simp [hmem]))
    simp [lastIdx, hc', hx]

theorem lastIdx_append (ch : Char) (p c : List Char) (hc : ch ∉ c) :
    lastIdx ch (p ++ ch :: c) = some p.length := by
  induction p with
  | nil => simp [lastIdx, lastIdx_none ch c hc]
  | cons x p' ih => simp [lastIdx, ih]

theorem firstIdx_some (ch : Char) :
    ∀ (t : List Char) (s : Nat), firstIdx ch t = some s →
      ∃ a r, t = a ++ ch :: r ∧ a.length = s := by
  intro t
  induction t with
  | nil => intro s h; exact absurd h (by simp [firstIdx])
  | cons x xs ih =>
    intro s h
    by_cases hx : x = ch
    · rw [firstIdx, if_pos hx] at h
      simp only [Option.some.injEq] at h
      exact ⟨[], xs, by simp [hx], by simp [h]⟩
    · rw [firstIdx, if_neg hx] at h
      simp only [Option.map_eq_some'] at h
      obtain ⟨s', hs', hss⟩ := h
      obtain ⟨a, r, hta, hal⟩ := ih s' hs'
      exact ⟨x :: a, r, by simp [hta], by simp [hal, hss]⟩

theorem lastIdx_some (ch : Char) :
    ∀ (t : List Char) (e : Nat), lastIdx ch t = some e →
      ∃ p c, t = p ++ ch :: c ∧ p.length = e := by
  intro t
  induction t with
  | nil => intro e h; exact absurd h (by simp [lastIdx])
  | cons x xs ih =>
    intro e h
    rw [lastIdx] at h
    cases hr : lastIdx ch xs with
    | some i =>
      rw [hr] at h
      simp only [Option.some.injEq] at h
      obtain ⟨p, c, htp, hpl⟩ := ih i hr
      exact ⟨x :: p, c, by simp [htp], by simp [hpl, h]⟩
    | none =>
      rw [hr] at h
      by_cases hx : x = ch
      · rw [if_pos hx] at h
        simp only [Option.some.injEq] at h
        exact ⟨[], xs, by simp [hx], by simp [← h]⟩
      · rw [if_neg hx] at h
        exact absurd h (by simp)

/-- C4: for every input text containing no fenced marker at all, if the
first `\x7b` comes strictly before the last `\x7d` (decomposed as
`a ++ \x7b :: b ++ \x7d :: c` with no `\x7b` in `a` and no `\x7d` in
`c`), `extractJson` returns the trimmed inclusive slice between them;
otherwise (no such pair, the empty text included) it returns `none`. -/
theorem extractJson_braces (t : List Char)
    (hnofence : ∀ i < t.length, ¬ matchesAt id closeFence t i) :
    (∀ a b c : List Char, t = a ++ ('{' :: (b ++ ('}' :: c))) → '{' ∉ a → '}' ∉ c →
        extractJson t = some (trimChars ('{' :: (b ++ ['}'])))) ∧
    ((∀ a b c : List Char, t ≠ a ++ ('{' :: (b ++ ('}' :: c)))) → extractJson t = none) := by
  have hnf : ∀ i, ¬ matchesAt id closeFence t i := by
    intro i hmat
    exact hnofence i (matchesAt_lt_length id (by decide) hmat) hmat
  have hgen : splitSubBy id closeFence t = none := splitSubBy_none_of _ _ _ hnf
  have hgf : genericFenced t = none := by simp [genericFenced, hgen]
  have hjson : jsonFenced t = none := by
    cases hj : splitSubBy Char.toLower jsonMarker t with
    | none => simp [jsonFenced, hj]
    | some p =>
      obtain ⟨b, r⟩ := p
      obtain ⟨m', htd, hm'⟩ := splitSubBy_some_decomp _ _ _ _ _ hj
      have hinner : splitSubBy id closeFence r = none := by
        refine splitSubBy_none_of _ _ _ ?_
        intro i hmat
        have h2 : matchesAt id closeFence ((b ++ m') ++ r) ((b ++ m').length + i) :=
          matchesAt_append_left id (b ++ m') hmat
        rw [List.append_assoc] at h2
        rw [← htd] at h2
        exact hnf _ h2
      simp [jsonFenced, hj, hinner]
  constructor
  · intro a b c htd hna hnc
    have hne : t.isEmpty = false := by
      rw [htd]; exact isEmpty_false_of_ne _ (by simp)
    have hfi : firstIdx '{' t = some a.length := by
      rw [htd]; exact firstIdx_append '{' a _ hna
    have hli : lastIdx '}' t = some (a ++ ('{' :: b)).length := by
      have hre : t = (a ++ ('{' :: b)) ++ '}' :: c := by rw [htd]; simp
      rw [hre]; exact lastIdx_append '}' _ c hnc
    have hdrop : t.drop a.length = '{' :: (b ++ ('}' :: c)) := by
      rw [htd]; exact List.drop_left a _
    have htake : (t.drop a.length).take ((a ++ ('{' :: b)).length + 1 - a.length) =
        '{' :: (b ++ ['}']) := by
      rw [hdrop]
      have he : (a ++ ('{' :: b)).length + 1 - a.length = (b.length + 1) + 1 := by
        simp only [List.length_append, List.length_cons]; omega
      rw [he, List.take_succ_cons]
      have h3 : (b ++ ('}' :: c)).take (b.length + 1) = b ++ ('}' :: c).take 1 :=
        List.take_append 1
      rw [h3]
      rfl
    have hslt : a.length < (a ++ ('{' :: b)).length := by
      simp only [List.length_append, List.length_cons]; omega
    simp only [extractJson, hne, hjson, hgf, hfi, hli, hslt]
    simp only [List.length_append, List.length_cons]
    rw [show a.length + (b.length + 1) + 1 - a.length = (b.length + 1) + 1 by omega]
    rw [hdrop, List.take_succ_cons, List.take_append 1]
    simp
  · intro hno
    by_cases ht0 : t.isEmpty
    · simp [extractJson, ht0]
    · have hne : t.isEmpty = false := by simpa using ht0
      cases hfi : firstIdx '{' t with
      | none => simp [extractJson, hne, hjson, hgf, hfi]
      | some s =>
        cases hli : lastIdx '}' t with
        | none => simp [extractJson, hne, hjson, hgf, hfi, hli]
        | some e =>
          by_cases hse : s < e
          · exfalso
            obtain ⟨a, r, hta, hal⟩ := firstIdx_some '{' t s hfi
            obtain ⟨p, c, htp, hpl⟩ := lastIdx_some '}' t e hli
            have hta2 : t = (a ++ ['{']) ++ r := by rw [hta]; simp
            have hp : t.take p.length = p := by rw [htp]; exact List.take_left _ _
            have hp2 : t.take p.length = (a ++ ['{']) ++ r.take (p.length - (a.length + 1)) := by
              rw [hta2, List.take_append_eq_append_take]
              congr 1
              · refine List.take_of_length_le ?_
                simp only [List.length_append, List.length_cons, List.length_nil]
                omega
              · congr 1
                simp
            have hpeq : p = (a ++ ['{']) ++ r.take (p.length - (a.length + 1)) :=
              hp.symm.trans hp2
            rw [hpl] at hpeq
            have hfinal : t = a ++ ('{' :: (r.take (e - (a.length + 1)) ++ ('}' :: c))) := by
              rw [htp, hpeq]; simp
            exact hno a _ c hfinal
          · simp [extractJson, hne, hjson, hgf, hfi, hli, hse]

/-- Witness for C4 at a fence-free text with a brace pair, exercising
the positive slice branch and, vacuously, the negative branch. -/
theorem extractJson_braces_witness :
    (∀ i < "w \x7b p \x7d q".toList.length,
      ¬ matchesAt id closeFence "w \x7b p \x7d q".toList i) ∧
    ((∀ a b c : List Char,
        "w \x7b p \x7d q".toList = a ++ ('{' :: (b ++ ('}' :: c))) → '{' ∉ a → '}' ∉ c →
        extractJson "w \x7b p \x7d q".toList = some (trimChars ('{' :: (b ++ ['}'])))) ∧
      ((∀ a b c : List Char, "w \x7b p \x7d q".toList ≠ a ++ ('{' :: (b ++ ('}' :: c)))) →
        extractJson "w \x7b p \x7d q".toList = none)) :=
  ⟨by decide, extractJson_braces "w \x7b p \x7d q".toList (by decide)⟩

/-- C6: on the empty object every field falls back, and the formatter
returns exactly the "Unknown medicine" line, a blank line, and the
default "Note:" section, after trimming. -/
theorem formatMedicineData_empty_obj :
    formatMedicineData (.vObj []) =
      some ("Unknown medicine\n\nNote:\nThis information is for educational purposes only. Always consult a qualified healthcare professional.".toList) := by
  decide

/-- Counterexample to C2 as stated: a `null` entry inside `sideEffects`
makes the formatter read `.severity` off `null` and throw, so it does
not totally return a string. -/
theorem formatMedicineData_null_side_effect_cex :
    formatMedicineData (.vObj [("sideEffects".toList, .vArr [.vNull])]) = none := by
  decide

theorem dropWhile_isJsWs_idem (l : List Char) :
    List.dropWhile isJsWs (List.dropWhile isJsWs l) = List.dropWhile isJsWs l := by
  induction l with
  | nil => rfl
  | cons a l' ih =>
    by_cases hpa : isJsWs a = true
    · simp [List.dropWhile_cons, hpa, ih]
    · simp [List.dropWhile_cons, hpa]

theorem length_dropWhile_le_own (p : Char → Bool) (l : List Char) :
    (List.dropWhile p l).length ≤ l.length := by
  induction l with
  | nil => exact Nat.le_refl _
  | cons a l' ih =>
    by_cases hpa : p a = true
    · rw [List.dropWhile_cons, if_pos hpa]
      exact Nat.le_trans ih (by simp)
    · rw [List.dropWhile_cons, if_neg hpa]

theorem dropWhile_eq_self_of_pre (x l : List Char) (hx : x <+: l)
    (hl : List.dropWhile isJsWs l = l) : List.dropWhile isJsWs x = x := by
  cases x with
  | nil => rfl
  | cons a x' =>
    by_cases hpa : isJsWs a = true
    · exfalso
      obtain ⟨tl, htl⟩ := hx
      rw [← htl, List.cons_append, List.dropWhile_cons, if_pos hpa] at hl
      have hlen := congrArg List.length hl
      have hle := length_dropWhile_le_own isJsWs (x' ++ tl)
      rw [List.length_cons] at hlen
      omega
    · simp [List.dropWhile_cons, hpa]

theorem trimChars_idem (s : List Char) : trimChars (trimChars s) = trimChars s := by
  have hB : (List.dropWhile isJsWs (List.dropWhile isJsWs s).reverse).reverse <+:
      List.dropWhile isJsWs s := by
    conv_rhs => rw [← List.reverse_reverse (List.dropWhile isJsWs s),
      ← List.takeWhile_append_dropWhile isJsWs (List.dropWhile isJsWs s).reverse]
    rw [List.reverse_append]
    exact List.prefix_append _ _
  have h1 := dropWhile_eq_self_of_pre _ _ hB (dropWhile_isJsWs_idem s)
  unfold trimChars
  rw [h1, List.reverse_reverse, dropWhile_isJsWs_idem]

theorem renderGroups_total (gs : List JVal) (h : JVal.vNull ∉ gs) :
    ∃ s, renderGroups gs = some s := by
  induction gs with
  | nil => exact ⟨[], rfl⟩
  | cons g gs' ih =>
    have hg : g ≠ JVal.vNull := fun hh => h (by simp [hh])
    have hgs' : JVal.vNull ∉ gs' := fun hm => h (by simp [hm])
    obtain ⟨s', hs'⟩ := ih hgs'
    have hrg : ∃ u, renderGroup g = some u := by
      cases g with
      | vNull => exact absurd rfl hg
      | vStr s => exact ⟨_, rfl⟩
      | vBool b => exact ⟨_, rfl⟩
      | vNum n => exact ⟨_, rfl⟩
      | vArr xs => exact ⟨_, rfl⟩
      | vObj fs => exact ⟨_, rfl⟩
    obtain ⟨u, hu⟩ := hrg
    exact ⟨u ++ s', by simp [renderGroups, hu, hs']⟩

/-- C2 (amended): on every object input, `formatMedicineData` returns a
trimmed plain-text string — treating non-array `uses`/`sideEffects` as
absent — provided `sideEffects`, when it is an array, has no `null`
entry; with a `null` entry the `.severity` read throws (see the
counterexample). -/
theorem formatMedicineData_total (fs : List (List Char × JVal))
    (h : ∀ gs, lookupF fs seKey = some (.vArr gs) → JVal.vNull ∉ gs) :
    ∃ s, formatMedicineData (.vObj fs) = some s ∧ trimChars s = s := by
  cases hse : lookupF fs seKey with
  | none =>
    simp [formatMedicineData, jprop, hse]
    exact trimChars_idem _
  | some v =>
    cases v with
    | vNull =>
      simp [formatMedicineData, jprop, hse]
      exact trimChars_idem _
    | vBool b =>
      simp [formatMedicineData, jprop, hse]
      exact trimChars_idem _
    | vNum n =>
      simp [formatMedicineData, jprop, hse]
      exact trimChars_idem _
    | vStr s =>
      simp [formatMedicineData, jprop, hse]
      exact trimChars_idem _
    | vObj fs' =>
      simp [formatMedicineData, jprop, hse]
      exact trimChars_idem _
    | vArr gs =>
      by_cases hemp : gs.isEmpty
      · simp [formatMedicineData, jprop, hse, hemp]
        exact trimChars_idem _
      · obtain ⟨u, hu⟩ := renderGroups_total gs (h gs hse)
        simp [formatMedicineData, jprop, hse, hemp, hu]
        exact trimChars_idem _

/-- Witness for C2 (amended) at a concrete object with no
`sideEffects` field. -/
theorem formatMedicineData_total_witness :
    (∀ gs, lookupF [(nameKey, JVal.vStr "Panadol".toList)] seKey =
        some (.vArr gs) → JVal.vNull ∉ gs) ∧
    ∃ s, formatMedicineData (.vObj [(nameKey, JVal.vStr "Panadol".toList)]) = some s ∧
      trimChars s = s :=
  ⟨fun gs hgs => absurd hgs (by simp [lookupF]),
    formatMedicineData_total _ (fun gs hgs => absurd hgs (by simp [lookupF]))⟩

/-- C7: round trip at the concrete input
`prefix ```json\n\x7b"name":"Aspirin"\x7d\n```\nsuffix`: the extractor
yields `\x7b"name":"Aspirin"\x7d`, which parses to the singleton
object, and the formatter on that object yields `Aspirin`, a blank
line, and the default `Note:` section. -/
theorem extract_parse_format_roundtrip :
    extractJson "prefix ```json\n\x7b\"name\":\"Aspirin\"\x7d\n```\nsuffix".toList =
      some "\x7b\"name\":\"Aspirin\"\x7d".toList ∧
    jsonParse "\x7b\"name\":\"Aspirin\"\x7d".toList =
      some (.vObj [(nameKey, .vStr "Aspirin".toList)]) ∧
    formatMedicineData (.vObj [(nameKey, .vStr "Aspirin".toList)]) =
      some ("Aspirin\n\nNote:\n".toList ++ disclaimerMsg) :=
  ⟨by decide, rfl, by decide⟩

/-- Counterexample to C3 as stated: on upstream text
`\x7b"sideEffects":[null]\x7d` the parse succeeds, yet the response
text is the raw upstream text and not "the Formatter's output on the
parsed object" — the formatter throws on that object, so no such
output exists — and `raw` is the parsed object rather than null. -/
theorem handleParse_format_throw_cex :
    jsonParse ((extractJson "\x7b\"sideEffects\":[null]\x7d".toList).getD
        "\x7b\"sideEffects\":[null]\x7d".toList) =
      some (.vObj [(seKey, .vArr [.vNull])]) ∧
    handleParse jsonParse "\x7b\"sideEffects\":[null]\x7d".toList =
      ("\x7b\"sideEffects\":[null]\x7d".toList, some (.vObj [(seKey, .vArr [.vNull])])) ∧
    ¬ ∃ s, formatMedicineData (.vObj [(seKey, .vArr [.vNull])]) = some s ∧
        (handleParse jsonParse "\x7b\"sideEffects\":[null]\x7d".toList).1 = s := by
  refine ⟨rfl, rfl, ?_⟩
  rintro ⟨s, hs, _⟩
  have hnone : formatMedicineData (.vObj [(seKey, .vArr [.vNull])]) = none := by decide
  rw [hnone] at hs
  exact Option.noConfusion hs

/-- C3 (amended): with a truthy query and a successful upstream call on
raw text, the handler responds 200 with `text`/`raw` from the inner
try; on parse failure `text` is the unmodified raw text and `raw` is
null; after a successful parse `raw` is the parsed object, `text` is
the formatter output when the formatter succeeds, and falls back to the
raw text when the formatter throws.  Neither failure becomes an HTTP
error. -/
theorem handlePost_parse_phase (parse : List Char → Option JVal) (body : Option JVal)
    (raw : List Char) (hq : jTruthy (getQuery body) = true) :
    handlePost parse (.ok raw) body =
      (true, ⟨200, .vObj [("text".toList, .vStr (handleParse parse raw).1),
        ("raw".toList, ((handleParse parse raw).2).getD .vNull)]⟩) ∧
    (parse ((extractJson raw).getD raw) = none → handleParse parse raw = (raw, none)) ∧
    (∀ v, parse ((extractJson raw).getD raw) = some v →
      (∀ s, formatMedicineData v = some s → handleParse parse raw = (s, some v)) ∧
      (formatMedicineData v = none → handleParse parse raw = (raw, some v))) := by
  refine ⟨?_, ?_, ?_⟩
  · simp [handlePost, hq]
  · intro hp
    simp [handleParse, hp]
  · intro v hv
    constructor
    · intro s hs
      simp [handleParse, hv, hs]
    · intro hn
      simp [handleParse, hv, hn]

/-- Witness for C3 (amended) at a concrete body and raw text on which
the parse fails. -/
theorem handlePost_parse_phase_witness :
    jTruthy (getQuery (some (.vObj [(queryKey, .vStr "aspirin".toList)]))) = true ∧
    (handlePost jsonParse (.ok "nope".toList) (some (.vObj [(queryKey, .vStr "aspirin".toList)])) =
      (true, ⟨200, .vObj [("text".toList, .vStr (handleParse jsonParse "nope".toList).1),
        ("raw".toList, ((handleParse jsonParse "nope".toList).2).getD .vNull)]⟩) ∧
    (jsonParse ((extractJson "nope".toList).getD "nope".toList) = none →
      handleParse jsonParse "nope".toList = ("nope".toList, none)) ∧
    (∀ v, jsonParse ((extractJson "nope".toList).getD "nope".toList) = some v →
      (∀ s, formatMedicineData v = some s → handleParse jsonParse "nope".toList = (s, some v)) ∧
      (formatMedicineData v = none → handleParse jsonParse "nope".toList = ("nope".toList, some v)))) :=
  ⟨by decide,
    handlePost_parse_phase jsonParse (some (.vObj [(queryKey, .vStr "aspirin".toList)]))
      "nope".toList (by decide)⟩

/-- C8: with no query field in the request body the handler responds
400 with the fixed error body, and the upstream capability is never
invoked (the returned flag is false), for every parse function and
every upstream behaviour. -/
theorem handlePost_missing_query (parse : List Char → Option JVal)
    (upstream : Except (List Char) (List Char)) (body : Option JVal)
    (h : getQuery body = none) :
    handlePost parse upstream body =
      (false, ⟨400, .vObj [("error".toList, .vStr "query is required".toList)]⟩) := by
  simp [handlePost, h, jTruthy]

/-- Witness for C8 at an absent request body. -/
theorem handlePost_missing_query_witness :
    getQuery none = none ∧
    handlePost jsonParse (.ok []) none =
      (false, ⟨400, .vObj [("error".toList, .vStr "query is required".toList)]⟩) :=
  ⟨rfl, handlePost_missing_query jsonParse (.ok []) none rfl⟩

/-- C9: whenever the upstream call throws, the handler responds 500
with the fixed body, independently of the thrown detail — so the
error detail never reaches the response body. -/
theorem handlePost_upstream_failure (parse : List Char → Option JVal)
    (body : Option JVal) (detail : List Char)
    (h : jTruthy (getQuery body) = true) :
    handlePost parse (.error detail) body =
      (true, ⟨500, .vObj [("error".toList, .vStr "Gemini AI request failed".toList)]⟩) := by
  simp [handlePost, h]

/-- Witness for C9 at a concrete query and error detail. -/
theorem handlePost_upstream_failure_witness :
    jTruthy (getQuery (some (.vObj [(queryKey, .vStr "x".toList)]))) = true ∧
    handlePost jsonParse (.error "boom".toList)
        (some (.vObj [(queryKey, .vStr "x".toList)])) =
      (true, ⟨500, .vObj [("error".toList, .vStr "Gemini AI request failed".toList)]⟩) :=
  ⟨by decide,
    handlePost_upstream_failure jsonParse (some (.vObj [(queryKey, .vStr "x".toList)]))
      "boom".toList (by decide)⟩

/-- C10: a query field that is present but falsy — the empty string,
0, false or null — is rejected exactly like an absent one: 400 with
the fixed error body and no upstream invocation. -/
theorem handlePost_falsy_query (parse : List Char → Option JVal)
    (upstream : Except (List Char) (List Char)) (fs : List (List Char × JVal)) (q : JVal)
    (hlk : lookupF fs queryKey = some q)
    (hq : q = .vStr [] ∨ q = .vNum 0 ∨ q = .vBool false ∨ q = .vNull) :
    handlePost parse upstream (some (.vObj fs)) =
      (false, ⟨400, .vObj [("error".toList, .vStr "query is required".toList)]⟩) := by
  have hfalse : jTruthy (getQuery (some (.vObj fs))) = false := by
    rcases hq with h | h | h | h <;> subst h <;> simp [getQuery, hlk, jTruthy]
  simp [handlePost, hfalse]

/-- Witness for C10 at a body whose query is the number 0. -/
theorem handlePost_falsy_query_witness :
    lookupF [(queryKey, JVal.vNum 0)] queryKey = some (JVal.vNum 0) ∧
    (JVal.vNum 0 = JVal.vStr [] ∨ JVal.vNum 0 = JVal.vNum 0 ∨
      JVal.vNum 0 = JVal.vBool false ∨ JVal.vNum 0 = JVal.vNull) ∧
    handlePost jsonParse (.ok []) (some (.vObj [(queryKey, JVal.vNum 0)])) =
      (false, ⟨400, .vObj [("error".toList, .vStr "query is required".toList)]⟩) :=
  ⟨rfl, Or.inr (Or.inl rfl),
    handlePost_falsy_query jsonParse (.ok []) _ _ rfl (Or.inr (Or.inl rfl))⟩
